import Mathlib

set_option maxRecDepth 8192

/-!
Shallow embedding of the `ini` package (src/ini.go): a schema-driven parser
for a line-oriented, sectioned key/value configuration format.

Strings are modelled as lists of runes (`List Char`).  All the Go string
operations the parser uses (`strings.HasPrefix`/`HasSuffix` with a one-rune
pattern, `TrimPrefix`/`TrimSuffix`, `TrimSpace`) act on valid UTF-8 input
exactly as the corresponding rune-list operation, so this is faithful for
the inputs the parser can see.  Input is modelled as the list of lines the
`bufio.Scanner` produces (lines never contain a newline character).
-/

namespace Ini

/-- A Go string, as its sequence of runes. -/
abbrev Str : Type := List Char

/-- Convenience: the rune sequence of a literal. -/
def str (s : String) : Str := s.data

/-- The whitespace class of Go regexp `\s` (RE2 Perl class `[\t\n\f\r ]`). -/
def isReSpace (c : Char) : Bool :=
  c = ' ' || c = '\t' || c = '\n' || c = Char.ofNat 12 || c = '\r'

/-- The set recognized by Go `unicode.IsSpace`, used by `strings.TrimSpace`:
`\t \n \v \f \r ' '` plus U+0085, U+00A0 and the Unicode space separators. -/
def isGoSpace (c : Char) : Bool :=
  c = ' ' || c = '\t' || c = '\n' || c = Char.ofNat 11 || c = Char.ofNat 12 || c = '\r' ||
  c = Char.ofNat 0x85 || c = Char.ofNat 0xA0 || c = Char.ofNat 0x1680 ||
  (Char.ofNat 0x2000 ≤ c && c ≤ Char.ofNat 0x200A) ||
  c = Char.ofNat 0x2028 || c = Char.ofNat 0x2029 ||
  c = Char.ofNat 0x202F || c = Char.ofNat 0x205F || c = Char.ofNat 0x3000

/-- The character class of `nameRe` and `valRe`: `[a-zA-Z0-9-_]`. -/
def isNameChar (c : Char) : Bool :=
  ('a' ≤ c && c ≤ 'z') || ('A' ≤ c && c ≤ 'Z') || ('0' ≤ c && c ≤ '9') || c = '-' || c = '_'

/-- `nameRe = ^[a-zA-Z0-9-_]+$` (ini.go line 43): a nonempty run of name characters. -/
def nameOk (s : Str) : Bool := !s.isEmpty && s.all isNameChar

/-- `strings.TrimSpace`: strip leading and trailing `unicode.IsSpace` runes. -/
def goTrimSpace (s : Str) : Str :=
  ((s.dropWhile isGoSpace).reverse.dropWhile isGoSpace).reverse

/-- Matching of `blankRe`, built in `Parse` (ini.go line 391) as
`fmt.Sprintf("^\s*(:?\x{%x}.*)?$", parser.CommentChar)`.  Note that the group
begins with `(:?` — a group containing an *optional literal colon* — and not
the non-capturing group marker `(?:`; so the regexp matches a line of
whitespace, or whitespace followed by an optional `:`, the comment character,
and anything.  (`.` cannot match a newline, but scanner lines never contain
one.) -/
def isBlankOrComment (commentChar : Char) (l : Str) : Bool :=
  match l.dropWhile isReSpace with
  | [] => true
  | c :: rest =>
    c = commentChar ||
      (c = ':' && match rest with
        | c2 :: _ => c2 = commentChar
        | [] => false)

/-- Whether the capture group of `sectionRe` — the alternation
`(n1|n2|...)` of the registered names, which is the empty group `()` when no
section is registered — matches the text `nm`. -/
def nameMatches (names : List Str) (nm : Str) : Bool :=
  decide (nm ∈ names) || (decide (names = []) && decide (nm = []))

/-- Matching of `sectionRe`, built in `Parse` (ini.go line 390) as
`^\s*\[\s*(n1|n2|...)\s*\]\s*$` from the registered section names, returning
the captured submatch.  Every registered name is a nonempty string over the
name alphabet (enforced by `AddSection`), and the alternation is followed by
`\s*\]`; hence the regexp matches exactly when the maximal run of name
characters after `[` and its following whitespace equals one of the names.
When the name list is empty the Go code builds the group `()`, which matches
the empty string, so `[]` (with optional whitespace) matches with capture "". -/
def matchHeader (names : List Str) (l : Str) : Option Str :=
  match l.dropWhile isReSpace with
  | [] => none
  | c :: r1 =>
    if c = '[' then
      let r2 := r1.dropWhile isReSpace
      let nm := r2.takeWhile isNameChar
      match (r2.dropWhile isNameChar).dropWhile isReSpace with
      | [] => none
      | c2 :: r3 =>
        if c2 = ']' then
          if (r3.dropWhile isReSpace).isEmpty && nameMatches names nm then
            some nm
          else none
        else none
    else none

/-- Matching of `valRe = ^\s*([a-zA-Z0-9-_]+)\s*=(.*)$` (ini.go line 44),
returning the two submatches: the field name and everything after the `=`. -/
def matchAssign (l : Str) : Option (Str × Str) :=
  let r := l.dropWhile isReSpace
  let nm := r.takeWhile isNameChar
  if nm = [] then none
  else
    match (r.dropWhile isNameChar).dropWhile isReSpace with
    | [] => none
    | c :: v => if c = '=' then some (nm, v) else none

/-- The quote-stripping step of `Parse` (ini.go lines 423-428):
if `QuoteChar` is not the disabling sentinel `' '`, and the text both starts
and ends with `QuoteChar`, the code runs
`strings.TrimSuffix(strings.TrimPrefix(s, c), c)`: `TrimPrefix` removes the
(present) leading quote, after which `TrimSuffix` removes a trailing quote if
one remains. -/
def stripQuotes (quoteChar : Char) (s : Str) : Str :=
  if quoteChar = ' ' then s
  else if s.head? = some quoteChar && s.getLast? = some quoteChar then
    let t := s.drop 1
    match t.getLast? with
    | some c => if c = quoteChar then t.dropLast else t
    | none => t
  else s

/-- The value preprocessing `Parse` applies to the raw text after `=`
(ini.go lines 422-428): `strings.TrimSpace`, then quote stripping. -/
def preprocessValue (quoteChar : Char) (raw : Str) : Str :=
  stripQuotes quoteChar (goTrimSpace raw)

/-- A parsed field value (`any` in the Go code, which only ever holds
values produced by the registered coercion functions). -/
inductive Value where
  | vStr (s : Str)
  | vBool (b : Bool)
  | vInt (i : Int)
  | vUint (n : Nat)
deriving DecidableEq, Repr

/-- `ParseError`, by the `parseFail` call site that produced it (each
constructor corresponds to one of the irritant format strings in `Parse`). -/
inductive PError where
  | undefinedSection (line : Nat) (name : Str)
  | settingOutsideSection (line : Nat) (name : Str)
  | noSuchField (line : Nat) (sectionName : Str) (name : Str)
  | invalidValue (line : Nat) (sectionName : Str) (text : Str) (name : Str)
  | invalidSyntaxBeforeSection (line : Nat)
  | invalidSyntax (line : Nat) (sectionName : Str)
deriving DecidableEq, Repr

/-- A `Field`: name, type tag, default value, and coercion function.  Go's
`valid` returns `(any, bool)` where the value is meaningless when the flag is
false; this is modelled as an `Option`. -/
structure Field where
  name : Str
  ty : Int
  defaultValue : Value
  valid : Str → Option Value

/-- A `Section` (named `IniSection` here to avoid clashing with ambient
names): its name and its field map.  Go maps are modelled as association
lists; only key lookup and key update are ever performed on them. -/
structure IniSection where
  name : Str
  fields : List (Str × Field)

/-- The `Parser`: options plus the section map. -/
structure Parser where
  commentChar : Char
  quoteChar : Char
  sections : List (Str × IniSection)

/-- Association-list lookup (Go map indexing). -/
def alookup {α : Type} : List (Str × α) → Str → Option α
  | [], _ => none
  | (k, v) :: t, key => if k = key then some v else alookup t key

/-- Association-list update (Go map assignment): replace the binding if the
key is present, otherwise add it. -/
def aset {α : Type} : List (Str × α) → Str → α → List (Str × α)
  | [], key, v => [(key, v)]
  | (k, w) :: t, key, v => if k = key then (k, v) :: t else (k, w) :: aset t key v

/-- The `Store`: a map from section name to that section's value map
(`sectStore`).  Generic in the value type so that the spec-modelled list
variant of the engine can reuse it. -/
structure Store (α : Type) where
  sections : List (Str × List (Str × α))
deriving DecidableEq, Repr

/-- `Store.lookupSect`: is the section present? -/
def Store.lookupSect {α : Type} (st : Store α) (sname : Str) : Bool :=
  (alookup st.sections sname).isSome

/-- `Store.lookupVal`: the value recorded for a field of a section. -/
def Store.lookupVal {α : Type} (st : Store α) (sname fname : Str) : Option α :=
  match alookup st.sections sname with
  | some vals => alookup vals fname
  | none => none

/-- `Store.ensure`: make sure a record for the section exists, creating an
empty one if needed (ini.go lines 369-378). -/
def Store.ensure {α : Type} (st : Store α) (sname : Str) : Store α :=
  if (alookup st.sections sname).isSome then st
  else ⟨st.sections ++ [(sname, [])]⟩

/-- Update the value map of the (present) section `sname`. -/
def asetIn {α : Type} : List (Str × List (Str × α)) → Str → Str → α → List (Str × List (Str × α))
  | [], _, _, _ => []
  | (k, vals) :: t, sname, fname, v =>
    if k = sname then (k, aset vals fname v) :: t else (k, vals) :: asetIn t sname fname v

/-- `Store.set` (ini.go lines 380-382): `ensure(section).values[field.name] = val`. -/
def Store.set {α : Type} (st : Store α) (sname fname : Str) (v : α) : Store α :=
  ⟨asetIn (st.ensure sname).sections sname fname v⟩

/-- The scanning loop of `Parse` (ini.go lines 396-440).  `names` is the key
enumeration of `parser.sections` used to build `sectionRe` (Go map iteration
order is arbitrary, so it is an explicit parameter here); `lineno` is the
running line counter, `sect` the current section, `st` the store built so
far. -/
def parseLines (p : Parser) (names : List Str) :
    List Str → Nat → Option IniSection → Store Value → Except PError (Store Value)
  | [], _, _, st => .ok st
  | l :: ls, lineno, sect, st =>
    if isBlankOrComment p.commentChar l then
      parseLines p names ls (lineno + 1) sect st
    else
      match matchHeader names l with
      | some nm =>
        match alookup p.sections nm with
        | none => .error (.undefinedSection (lineno + 1) nm)
        | some s => parseLines p names ls (lineno + 1) (some s) (st.ensure s.name)
      | none =>
        match matchAssign l with
        | some (fname, raw) =>
          match sect with
          | none => .error (.settingOutsideSection (lineno + 1) fname)
          | some s =>
            match alookup s.fields fname with
            | none => .error (.noSuchField (lineno + 1) s.name fname)
            | some fld =>
              match fld.valid (preprocessValue p.quoteChar raw) with
              | none =>
                .error (.invalidValue (lineno + 1) s.name (preprocessValue p.quoteChar raw) fname)
              | some v => parseLines p names ls (lineno + 1) (some s) (st.set s.name fld.name v)
        | none =>
          match sect with
          | none => .error (.invalidSyntaxBeforeSection (lineno + 1))
          | some s => .error (.invalidSyntax (lineno + 1) s.name)

/-- The key enumeration `slices.Collect(maps.Keys(parser.sections))` (one of
its possible orders; see the determinism theorem). -/
def keysOf (p : Parser) : List Str := p.sections.map Prod.fst

/-- `Parser.Parse` on the scanned lines of the input. -/
def parse (p : Parser) (lines : List Str) : Except PError (Store Value) :=
  parseLines p (keysOf p) lines 0 none ⟨[]⟩

/-- `NewParser`: comment character `#`, quote character `"`, no sections. -/
def newParser : Parser := ⟨'#', '"', []⟩

/-- `Parser.AddSection` (ini.go lines 107-118).  The two `panic`s are
modelled as `none`; success returns the extended parser (the new section is
retrievable by name). -/
def addSection (p : Parser) (name : Str) : Option Parser :=
  if !nameOk name then none
  else if (alookup p.sections name).isSome then none
  else some { p with sections := p.sections ++ [(name, ⟨name, []⟩)] }

/-- `Section.Add` (ini.go lines 225-238).  Checks, in the source's order:
name syntax, type tag `ty < 1`, duplicate name; each `panic` is `none`. -/
def addField (s : IniSection) (name : Str) (ty : Int) (d : Value)
    (valid : Str → Option Value) : Option IniSection :=
  if !nameOk name then none
  else if ty < 1 then none
  else if (alookup s.fields name).isSome then none
  else some { s with fields := s.fields ++ [(name, ⟨name, ty, d, valid⟩)] }

/-- `ParseBool` (ini.go lines 141-150). -/
def goParseBool (s : Str) : Option Value :=
  if s = str "true" || s = [] then some (.vBool true)
  else if s = str "false" then some (.vBool false)
  else none

/-- `ParseString` (ini.go lines 160-162). -/
def goParseString (s : Str) : Option Value := some (.vStr s)

/-- The comment/blank-line classification as the spec states it: a line
consisting only of whitespace, or whose first non-whitespace character
equals the configured comment character.  (Written from the spec's words,
for comparison with `isBlankOrComment`.) -/
def specCommentLine (commentChar : Char) (l : Str) : Bool :=
  match l.dropWhile isReSpace with
  | [] => true
  | c :: _ => c = commentChar

/-- Quote stripping as the spec states it: strip one quote from each end only
if the text starts and ends with the quote character *and is at least 2
characters long*.  (Written from the spec's words, for comparison with
`stripQuotes`.) -/
def specStripQuotes (quoteChar : Char) (s : Str) : Str :=
  if 2 ≤ s.length && s.head? = some quoteChar && s.getLast? = some quoteChar then
    (s.drop 1).dropLast
  else s

/-- The identifier pattern as the claims state it: `[-a-zA-Z0-9_$]+`
(note the `$`).  (Written from the spec's words, for comparison with
`nameOk`.) -/
def specNameOk (s : Str) : Bool := !s.isEmpty && s.all (fun c => isNameChar c || c = '$')

/-- The last element of a list of values, if any. -/
def lastVal {α : Type} : List α → Option α
  | [] => none
  | v :: vs =>
    match lastVal vs with
    | some w => some w
    | none => some v

/-! ### Generic helper lemmas -/

theorem reSpace_not_nameChar {c : Char} (h : isReSpace c = true) : isNameChar c = false := by
  simp only [isReSpace, Bool.or_eq_true, decide_eq_true_eq] at h
  rcases h with (((rfl | rfl) | rfl) | rfl) | rfl <;> decide

theorem nameChar_not_reSpace {c : Char} (h : isNameChar c = true) : isReSpace c = false := by
  cases hsp : isReSpace c with
  | false => rfl
  | true => rw [reSpace_not_nameChar hsp] at h; cases h

theorem takeWhile_append_all {p : Char → Bool} (xs ys : Str) :
    (∀ c ∈ xs, p c = true) → (xs ++ ys).takeWhile p = xs ++ ys.takeWhile p := by
  induction xs with
  | nil => intro _; rfl
  | cons x t ih =>
    intro h
    have hx : p x = true := h x (by simp)
    have ih2 := ih (fun c hc => h c (by simp [hc]))
    simp [List.takeWhile_cons, hx, ih2]

theorem dropWhile_append_all {p : Char → Bool} (xs ys : Str) :
    (∀ c ∈ xs, p c = true) → (xs ++ ys).dropWhile p = ys.dropWhile p := by
  induction xs with
  | nil => intro _; rfl
  | cons x t ih =>
    intro h
    have hx : p x = true := h x (by simp)
    have ih2 := ih (fun c hc => h c (by simp [hc]))
    simp [List.dropWhile_cons, hx, ih2]

theorem alookup_append {α : Type} (l₁ l₂ : List (Str × α)) (k : Str) :
    alookup (l₁ ++ l₂) k = ((alookup l₁ k).or (alookup l₂ k)) := by
  induction l₁ with
  | nil => simp [alookup, Option.or]
  | cons x t ih =>
    obtain ⟨k₀, w⟩ := x
    simp only [List.cons_append, alookup]
    by_cases hk : k₀ = k
    · simp [hk, Option.or]
    · simp [hk, ih]

theorem alookup_aset {α : Type} (m : List (Str × α)) (key k : Str) (v : α) :
    alookup (aset m key v) k = if key = k then some v else alookup m k := by
  induction m with
  | nil => by_cases hk : key = k <;> simp [aset, alookup, hk]
  | cons x t ih =>
    obtain ⟨k₀, w⟩ := x
    by_cases h₀ : k₀ = key
    · subst h₀
      by_cases hk : k₀ = k
      · subst hk; simp [aset, alookup]
      · simp [aset, alookup, hk]
    · by_cases hk : k₀ = k
      · subst hk
        have hne : ¬ key = k₀ := fun h => h₀ h.symm
        simp [aset, alookup, h₀, hne]
      · simp [aset, alookup, h₀, hk, ih]

theorem alookup_some_mem {α : Type} {m : List (Str × α)} {k : Str} {v : α}
    (h : alookup m k = some v) : k ∈ m.map Prod.fst := by
  induction m with
  | nil => simp [alookup] at h
  | cons x t ih =>
    obtain ⟨k₀, w⟩ := x
    by_cases hk : k₀ = k
    · subst hk
      rw [List.map_cons]
      exact List.mem_cons_self _ _
    · have h0 : (if k₀ = k then some w else alookup t k) = some v := h
      rw [if_neg hk] at h0
      rw [List.map_cons]
      exact List.mem_cons_of_mem _ (ih h0)

theorem alookup_eq_none {α : Type} {m : List (Str × α)} {k : Str}
    (h : k ∉ m.map Prod.fst) : alookup m k = none := by
  induction m with
  | nil => rfl
  | cons x t ih =>
    obtain ⟨k₀, w⟩ := x
    simp only [List.map_cons, List.mem_cons, not_or] at h
    obtain ⟨h1, h2⟩ := h
    have hne : ¬ k₀ = k := fun hk => h1 hk.symm
    simp only [alookup, if_neg hne]
    exact ih h2

theorem alookup_asetIn {α : Type} (m : List (Str × List (Str × α))) (s f : Str) (v : α)
    (k : Str) :
    alookup (asetIn m s f v) k =
      if s = k then (alookup m k).map (fun vals => aset vals f v) else alookup m k := by
  induction m with
  | nil => by_cases hk : s = k <;> simp [asetIn, alookup, hk]
  | cons x t ih =>
    obtain ⟨k₀, vals⟩ := x
    by_cases h₀ : k₀ = s
    · subst h₀
      by_cases hk : k₀ = k
      · subst hk; simp [asetIn, alookup]
      · simp [asetIn, alookup, hk, fun h : k₀ = k => hk h]
    · by_cases hk : k₀ = k
      · subst hk
        have hne : ¬ s = k₀ := fun h => h₀ h.symm
        simp [asetIn, alookup, h₀, hne]
      · simp [asetIn, alookup, h₀, hk, ih]

/-! ### Store lemmas -/

theorem ensure_alookup_present {α : Type} (st : Store α) (s m : Str)
    (hp : (alookup st.sections s).isSome = true) :
    alookup (st.ensure s).sections m = alookup st.sections m := by
  unfold Store.ensure
  rw [if_pos hp]

theorem ensure_alookup_absent {α : Type} (st : Store α) (s m : Str)
    (hp : alookup st.sections s = none) :
    alookup (st.ensure s).sections m =
      match alookup st.sections m with
      | some vals => some vals
      | none => if s = m then some [] else none := by
  unfold Store.ensure
  rw [if_neg (by simp [hp])]
  show alookup (st.sections ++ [(s, [])]) m = _
  rw [alookup_append]
  cases hm : alookup st.sections m with
  | some vals => rfl
  | none =>
    by_cases hsm : s = m <;> simp [Option.or, alookup, hsm]

theorem lookupSect_ensure {α : Type} (st : Store α) (s m : Str) :
    (st.ensure s).lookupSect m = (st.lookupSect m || s = m) := by
  unfold Store.lookupSect
  cases hs : alookup st.sections s with
  | some w =>
    rw [ensure_alookup_present st s m (by simp [hs])]
    by_cases hsm : s = m
    · subst hsm; simp [hs]
    · simp [hsm]
  | none =>
    rw [ensure_alookup_absent st s m hs]
    cases hm : alookup st.sections m with
    | some vals => simp
    | none =>
      by_cases hsm : s = m
      · subst hsm; simp
      · simp [hsm]

theorem lookupVal_ensure {α : Type} (st : Store α) (s m f : Str) :
    (st.ensure s).lookupVal m f = st.lookupVal m f := by
  unfold Store.lookupVal
  cases hs : alookup st.sections s with
  | some w => rw [ensure_alookup_present st s m (by simp [hs])]
  | none =>
    rw [ensure_alookup_absent st s m hs]
    cases hm : alookup st.sections m with
    | some vals => rfl
    | none =>
      by_cases hsm : s = m
      · subst hsm; simp [alookup]
      · simp [hsm]

theorem ensure_self_lookup {α : Type} (st : Store α) (s : Str) :
    ∃ vals, alookup (st.ensure s).sections s = some vals ∧
      ∀ g, alookup vals g = st.lookupVal s g := by
  cases hs : alookup st.sections s with
  | some vals =>
    refine ⟨vals, ?_, fun g => by unfold Store.lookupVal; rw [hs]⟩
    rw [ensure_alookup_present st s s (by simp [hs]), hs]
  | none =>
    refine ⟨[], ?_, fun g => by unfold Store.lookupVal; rw [hs]; rfl⟩
    rw [ensure_alookup_absent st s s hs, hs]
    simp

theorem lookupVal_set {α : Type} (st : Store α) (s f m g : Str) (v : α) :
    (st.set s f v).lookupVal m g =
      if s = m ∧ f = g then some v else st.lookupVal m g := by
  obtain ⟨vals, hv, hg⟩ := ensure_self_lookup st s
  by_cases hsm : s = m
  · subst hsm
    have hx : alookup (st.set s f v).sections s = some (aset vals f v) := by
      show alookup (asetIn (st.ensure s).sections s f v) s = _
      rw [alookup_asetIn, if_pos rfl, hv]
      rfl
    show (match alookup (st.set s f v).sections s with
          | some w => alookup w g
          | none => none) = _
    rw [hx]
    show alookup (aset vals f v) g = _
    rw [alookup_aset]
    by_cases hfg : f = g
    · simp [hfg]
    · have hc : ¬ (s = s ∧ f = g) := fun hh => hfg hh.2
      rw [if_neg hfg, if_neg hc]
      exact hg g
  · have hx : alookup (st.set s f v).sections m = alookup (st.ensure s).sections m := by
      show alookup (asetIn (st.ensure s).sections s f v) m = _
      rw [alookup_asetIn, if_neg hsm]
    have hens := lookupVal_ensure st s m g
    have hc : ¬ (s = m ∧ f = g) := fun hh => hsm hh.1
    rw [if_neg hc]
    show (match alookup (st.set s f v).sections m with
          | some w => alookup w g
          | none => none) = _
    rw [hx]
    show (st.ensure s).lookupVal m g = _
    exact hens

theorem lookupSect_set {α : Type} (st : Store α) (s f m : Str) (v : α) :
    (st.set s f v).lookupSect m = (st.lookupSect m || s = m) := by
  obtain ⟨vals, hv, _⟩ := ensure_self_lookup st s
  have hse := lookupSect_ensure st s m
  show (alookup (asetIn (st.ensure s).sections s f v) m).isSome = _
  rw [alookup_asetIn]
  by_cases hsm : s = m
  · subst hsm
    rw [if_pos rfl, hv]
    simp
  · rw [if_neg hsm]
    show (st.ensure s).lookupSect m = _
    rw [hse]

/-! ### The assignment and header traces of a run -/

/-- The successful assignments `parseLines` performs, in input order: the
store key (`section.name`, `field.name`) and stored (coerced) value of each.
Mirrors the branch structure of `parseLines`; on the branches where
`parseLines` stops with an error, the tail is irrelevant and taken empty. -/
def collectVals (p : Parser) (names : List Str) :
    List Str → Option IniSection → List ((Str × Str) × Value)
  | [], _ => []
  | l :: ls, sect =>
    if isBlankOrComment p.commentChar l then collectVals p names ls sect
    else
      match matchHeader names l with
      | some nm =>
        match alookup p.sections nm with
        | none => []
        | some s => collectVals p names ls (some s)
      | none =>
        match matchAssign l with
        | some (fname, raw) =>
          match sect with
          | none => []
          | some s =>
            match alookup s.fields fname with
            | none => []
            | some fld =>
              match fld.valid (preprocessValue p.quoteChar raw) with
              | none => []
              | some v => ((s.name, fld.name), v) :: collectVals p names ls (some s)
        | none => []

/-- The coerced values assigned to field `fname` of the section named `sname`
over a whole parse, in input order: each element is the output of the field's
coercion function on the preprocessed text of one assignment line. -/
def assignedVals (p : Parser) (lines : List Str) (sname fname : Str) : List Value :=
  (collectVals p (keysOf p) lines none).filterMap
    (fun kv => if kv.1 = (sname, fname) then some kv.2 else none)

/-- The store names of the sections whose header lines appear in the input:
one entry (the registered section's `name`) per non-blank line matching
`sectionRe` with a registered section name. -/
def headerNames (p : Parser) (names : List Str) (lines : List Str) : List Str :=
  lines.filterMap (fun l =>
    if isBlankOrComment p.commentChar l then none
    else
      match matchHeader names l with
      | some nm => (alookup p.sections nm).map IniSection.name
      | none => none)

theorem lastVal_cons {α : Type} (x : α) (xs : List α) :
    lastVal (x :: xs) =
      match lastVal xs with
      | some w => some w
      | none => some x := rfl

/-- Value characterization of a successful run of the scanning loop: the
value the final store records for a key is the last value assigned to that
key during the run, or whatever the starting store recorded if there was no
such assignment. -/
theorem parseLines_lookupVal (p : Parser) (names : List Str) :
    ∀ (ls : List Str) (n : Nat) (sect : Option IniSection) (st st' : Store Value),
      parseLines p names ls n sect st = .ok st' → ∀ m g,
      st'.lookupVal m g =
        match lastVal ((collectVals p names ls sect).filterMap
            (fun kv => if kv.1 = (m, g) then some kv.2 else none)) with
        | some v => some v
        | none => st.lookupVal m g := by
  intro ls
  induction ls with
  | nil =>
    intro n sect st st' h m g
    have hst : st = st' := by
      have h0 : Except.ok (ε := PError) st = .ok st' := h
      cases h0
      rfl
    subst hst
    rfl
  | cons l ls ih =>
    intro n sect st st' h m g
    simp only [parseLines] at h
    split at h
    · next hb =>
      rw [ih _ _ _ _ h m g]
      simp only [collectVals, if_pos hb]
    · next hb =>
      split at h
      · next nm hh =>
        split at h
        · simp at h
        · next s hs =>
          rw [ih _ _ _ _ h m g]
          simp only [collectVals, if_neg hb, hh, hs, lookupVal_ensure]
      · next hh =>
        split at h
        · next fname raw ha =>
          split at h
          · simp at h
          · next s =>
            split at h
            · simp at h
            · next fld hf =>
              split at h
              · simp at h
              · next v hv =>
                rw [ih _ _ _ _ h m g]
                simp only [collectVals, if_neg hb, hh, ha, hf, hv]
                rw [List.filterMap_cons]
                by_cases hkey : ((s.name, fld.name) : Str × Str) = (m, g)
                · rw [if_pos hkey]
                  rw [lastVal_cons]
                  cases lastVal (List.filterMap _ (collectVals p names ls (some s))) with
                  | some w => rfl
                  | none =>
                    have hmg : s.name = m ∧ fld.name = g := by
                      constructor
                      · exact congrArg Prod.fst hkey
                      · exact congrArg Prod.snd hkey
                    rw [lookupVal_set, if_pos hmg]
                · rw [if_neg hkey]
                  have hmg : ¬ (s.name = m ∧ fld.name = g) := by
                    intro hc
                    exact hkey (by rw [hc.1, hc.2])
                  rw [lookupVal_set, if_neg hmg]
        · next ha =>
          split at h
          · simp at h
          · simp at h

theorem headerNames_cons_blank {p : Parser} {names : List Str} {l : Str} (ls : List Str)
    (hb : isBlankOrComment p.commentChar l = true) :
    headerNames p names (l :: ls) = headerNames p names ls := by
  simp [headerNames, hb]

theorem headerNames_cons_header {p : Parser} {names : List Str} {l nm : Str}
    {s : IniSection} (ls : List Str)
    (hb : isBlankOrComment p.commentChar l = false) (hh : matchHeader names l = some nm)
    (hs : alookup p.sections nm = some s) :
    headerNames p names (l :: ls) = s.name :: headerNames p names ls := by
  simp [headerNames, hb, hh, hs]

theorem headerNames_cons_other {p : Parser} {names : List Str} {l : Str} (ls : List Str)
    (hb : isBlankOrComment p.commentChar l = false) (hh : matchHeader names l = none) :
    headerNames p names (l :: ls) = headerNames p names ls := by
  simp [headerNames, hb, hh]

/-- Presence characterization of a successful run of the scanning loop: a
section is present in the final store exactly when it was present initially
or a header line for it occurred, given the loop invariant that the current
section (if any) is already present. -/
theorem parseLines_lookupSect (p : Parser) (names : List Str) :
    ∀ (ls : List Str) (n : Nat) (sect : Option IniSection) (st st' : Store Value),
      (∀ s, sect = some s → st.lookupSect s.name = true) →
      parseLines p names ls n sect st = .ok st' → ∀ m,
      (st'.lookupSect m = true ↔
        (st.lookupSect m = true ∨ m ∈ headerNames p names ls)) := by
  intro ls
  induction ls with
  | nil =>
    intro n sect st st' hcur h m
    have h0 : Except.ok (ε := PError) st = .ok st' := h
    cases h0
    simp [headerNames]
  | cons l ls ih =>
    intro n sect st st' hcur h m
    simp only [parseLines] at h
    split at h
    · next hb =>
      rw [ih _ _ _ _ hcur h m, headerNames_cons_blank ls hb]
    · next hb =>
      split at h
      · next nm hh =>
        split at h
        · simp at h
        · next s hs =>
          have hcur2 : ∀ s', (some s = some s') →
              (st.ensure s.name).lookupSect s'.name = true := by
            intro s' hs'
            cases hs'
            rw [lookupSect_ensure]
            simp
          rw [ih _ _ _ _ hcur2 h m, headerNames_cons_header ls (by simpa using hb) hh hs]
          rw [lookupSect_ensure]
          simp only [Bool.or_eq_true, decide_eq_true_eq, List.mem_cons]
          constructor
          · rintro ((hl | hl) | hl)
            · exact .inl hl
            · exact .inr (.inl hl.symm)
            · exact .inr (.inr hl)
          · rintro (hl | hl | hl)
            · exact .inl (.inl hl)
            · exact .inl (.inr hl.symm)
            · exact .inr hl
      · next hh =>
        split at h
        · next fname raw ha =>
          split at h
          · simp at h
          · next s =>
            split at h
            · simp at h
            · next fld hf =>
              split at h
              · simp at h
              · next v hv =>
                have hpres : st.lookupSect s.name = true := hcur s rfl
                have hcur2 : ∀ s', (some s = some s') →
                    (st.set s.name fld.name v).lookupSect s'.name = true := by
                  intro s' hs'
                  cases hs'
                  rw [lookupSect_set]
                  simp
                rw [ih _ _ _ _ hcur2 h m, headerNames_cons_other ls (by simpa using hb) hh]
                rw [lookupSect_set]
                simp only [Bool.or_eq_true, decide_eq_true_eq]
                constructor
                · rintro ((hl | hl) | hl)
                  · exact .inl hl
                  · exact .inl (hl ▸ hpres)
                  · exact .inr hl
                · rintro (hl | hl)
                  · exact .inl (.inl hl)
                  · exact .inr hl
        · next ha =>
          split at h
          · simp at h
          · simp at h

/-- Monotonicity of a successful run of the scanning loop: section presence
and field-value presence only grow, given the loop invariant that the current
section (if any) is already present. -/
theorem parseLines_monotone (p : Parser) (names : List Str) :
    ∀ (ls : List Str) (n : Nat) (sect : Option IniSection) (st st' : Store Value),
      (∀ s, sect = some s → st.lookupSect s.name = true) →
      parseLines p names ls n sect st = .ok st' →
      (∀ m, st.lookupSect m = true → st'.lookupSect m = true) ∧
      (∀ m g v, st.lookupVal m g = some v → ∃ w, st'.lookupVal m g = some w) := by
  intro ls
  induction ls with
  | nil =>
    intro n sect st st' hcur h
    have h0 : Except.ok (ε := PError) st = .ok st' := h
    cases h0
    exact ⟨fun m hm => hm, fun m g v hv => ⟨v, hv⟩⟩
  | cons l ls ih =>
    intro n sect st st' hcur h
    simp only [parseLines] at h
    split at h
    · next hb => exact ih _ _ _ _ hcur h
    · next hb =>
      split at h
      · next nm hh =>
        split at h
        · simp at h
        · next s hs =>
          have hcur2 : ∀ s', (some s = some s') →
              (st.ensure s.name).lookupSect s'.name = true := by
            intro s' hs'
            cases hs'
            rw [lookupSect_ensure]
            simp
          obtain ⟨mono1, mono2⟩ := ih _ _ _ _ hcur2 h
          constructor
          · intro m hm
            exact mono1 m (by rw [lookupSect_ensure, hm]; rfl)
          · intro m g v hv
            exact mono2 m g v (by rw [lookupVal_ensure]; exact hv)
      · next hh =>
        split at h
        · next fname raw ha =>
          split at h
          · simp at h
          · next s =>
            split at h
            · simp at h
            · next fld hf =>
              split at h
              · simp at h
              · next v hv =>
                have hcur2 : ∀ s', (some s = some s') →
                    (st.set s.name fld.name v).lookupSect s'.name = true := by
                  intro s' hs'
                  cases hs'
                  rw [lookupSect_set]
                  simp
                obtain ⟨mono1, mono2⟩ := ih _ _ _ _ hcur2 h
                constructor
                · intro m hm
                  exact mono1 m (by rw [lookupSect_set, hm]; rfl)
                · intro m g w hw
                  by_cases hkey : s.name = m ∧ fld.name = g
                  · exact mono2 m g v (by rw [lookupVal_set, if_pos hkey])
                  · exact mono2 m g w (by rw [lookupVal_set, if_neg hkey]; exact hw)
        · next ha =>
          split at h
          · simp at h
          · simp at h

/-! ### Determinism with respect to the key enumeration -/

theorem nameMatches_congr {names₁ names₂ : List Str}
    (h : ∀ a, a ∈ names₁ ↔ a ∈ names₂) :
    ∀ nm, nameMatches names₁ nm = nameMatches names₂ nm := by
  have hemp : (names₁ = []) ↔ (names₂ = []) := by
    constructor
    · intro h1
      subst h1
      cases hn : names₂ with
      | nil => rfl
      | cons a t =>
        have ha : a ∈ ([] : List Str) := (h a).2 (by rw [hn]; simp)
        simp at ha
    · intro h2
      subst h2
      cases hn : names₁ with
      | nil => rfl
      | cons a t =>
        have ha : a ∈ ([] : List Str) := (h a).1 (by rw [hn]; simp)
        simp at ha
  intro nm
  unfold nameMatches
  rw [decide_eq_decide.mpr (h nm), decide_eq_decide.mpr hemp]

theorem matchHeader_congr {names₁ names₂ : List Str}
    (h : ∀ a, a ∈ names₁ ↔ a ∈ names₂) (l : Str) :
    matchHeader names₁ l = matchHeader names₂ l := by
  unfold matchHeader
  simp only [nameMatches_congr h]

/-! ### Classification of constructed lines -/

theorem nameOk_head {nm : Str} (h : nameOk nm = true) :
    ∃ c t, nm = c :: t ∧ isNameChar c = true := by
  cases nm with
  | nil => simp [nameOk] at h
  | cons c t =>
    simp only [nameOk, List.isEmpty_cons, Bool.not_false, Bool.true_and,
      List.all_cons, Bool.and_eq_true] at h
    exact ⟨c, t, rfl, h.1⟩

theorem nameOk_all {nm : Str} (h : nameOk nm = true) : ∀ c ∈ nm, isNameChar c = true := by
  simp only [nameOk, Bool.and_eq_true, List.all_eq_true] at h
  exact h.2

theorem nameOk_ne_nil {nm : Str} (h : nameOk nm = true) : nm ≠ [] := by
  obtain ⟨c, t, rfl, _⟩ := nameOk_head h
  simp

/-- The header line `[NAME]`. -/
def headerLine (nm : Str) : Str := '[' :: (nm ++ [']'])

/-- The assignment line `NAME = TEXT`. -/
def assignLine (fname x : Str) : Str := fname ++ (' ' :: '=' :: ' ' :: x)

theorem blank_headerLine {cc : Char} (nm : Str) (hcc : ¬ cc = '[') :
    isBlankOrComment cc (headerLine nm) = false := by
  unfold isBlankOrComment headerLine
  have e0 : isReSpace '[' = false := by decide
  rw [List.dropWhile_cons, e0]
  simp only [Bool.false_eq_true, if_false]
  have h1 : ¬ ('[' : Char) = cc := fun hgoal => hcc hgoal.symm
  simp [h1]

theorem matchHeader_headerLine (names : List Str) {nm : Str} (h : nameOk nm = true) :
    matchHeader names (headerLine nm) = if nm ∈ names then some nm else none := by
  have hall : ∀ c ∈ nm, isNameChar c = true := nameOk_all h
  obtain ⟨c, t, hnm, hc⟩ := nameOk_head h
  have e0 : isReSpace '[' = false := by decide
  have e1 : isNameChar ']' = false := by decide
  have e2 : isReSpace ']' = false := by decide
  have e3 : (nm ++ [']']).dropWhile isReSpace = nm ++ [']'] := by
    rw [hnm, List.cons_append, List.dropWhile_cons, nameChar_not_reSpace hc]
    simp
  have e4 : (nm ++ [']']).takeWhile isNameChar = nm := by
    rw [takeWhile_append_all nm [']'] hall, List.takeWhile_cons, e1]
    simp
  have e5 : (nm ++ [']']).dropWhile isNameChar = [']'] := by
    rw [dropWhile_append_all nm [']'] hall, List.dropWhile_cons, e1]
    simp
  have e6 : ([']'] : Str).dropWhile isReSpace = [']'] := by
    rw [List.dropWhile_cons, e2]
    simp
  unfold matchHeader headerLine
  rw [List.dropWhile_cons, e0]
  simp only [Bool.false_eq_true, if_false, if_pos rfl]
  rw [e3, e5, e6]
  simp only [e4]
  simp only [if_true]
  have e7 : (([] : Str).dropWhile isReSpace).isEmpty = true := rfl
  rw [e7]
  unfold nameMatches
  rw [decide_eq_false (by rw [hnm]; simp : ¬ nm = [])]
  simp only [Bool.and_false, Bool.or_false, Bool.true_and]
  by_cases hmem : nm ∈ names
  · simp [hmem]
  · simp [hmem]

theorem blank_assignLine {cc : Char} {fname : Str} (x : Str) (h : nameOk fname = true)
    (hcc : isNameChar cc = false) :
    isBlankOrComment cc (assignLine fname x) = false := by
  obtain ⟨c, t, hnm, hc⟩ := nameOk_head h
  unfold isBlankOrComment assignLine
  rw [hnm, List.cons_append, List.dropWhile_cons, nameChar_not_reSpace hc]
  simp only [Bool.false_eq_true, if_false]
  have h1 : ¬ c = cc := fun he => by rw [he, hcc] at hc; cases hc
  have h2 : ¬ c = ':' := fun he => by rw [he] at hc; cases hc
  simp [h1, h2]

theorem matchHeader_assignLine (names : List Str) {fname : Str} (x : Str)
    (h : nameOk fname = true) :
    matchHeader names (assignLine fname x) = none := by
  obtain ⟨c, t, hnm, hc⟩ := nameOk_head h
  unfold matchHeader assignLine
  rw [hnm, List.cons_append, List.dropWhile_cons, nameChar_not_reSpace hc]
  simp only [Bool.false_eq_true, if_false]
  have h1 : ¬ c = '[' := fun he => by rw [he] at hc; cases hc
  rw [if_neg h1]

theorem matchAssign_assignLine {fname : Str} (x : Str) (h : nameOk fname = true) :
    matchAssign (assignLine fname x) = some (fname, ' ' :: x) := by
  have hall : ∀ c ∈ fname, isNameChar c = true := nameOk_all h
  obtain ⟨c, t, hnm, hc⟩ := nameOk_head h
  have e0 : isNameChar ' ' = false := by decide
  have e1 : isReSpace ' ' = true := by decide
  have e2 : isReSpace '=' = false := by decide
  have e3 : (assignLine fname x).dropWhile isReSpace = assignLine fname x := by
    unfold assignLine
    rw [hnm, List.cons_append, List.dropWhile_cons, nameChar_not_reSpace hc]
    simp
  have e4 : (assignLine fname x).takeWhile isNameChar = fname := by
    unfold assignLine
    rw [takeWhile_append_all fname (' ' :: '=' :: ' ' :: x) hall, List.takeWhile_cons, e0]
    simp
  have e5 : (assignLine fname x).dropWhile isNameChar = ' ' :: '=' :: ' ' :: x := by
    unfold assignLine
    rw [dropWhile_append_all fname (' ' :: '=' :: ' ' :: x) hall, List.dropWhile_cons, e0]
    simp
  have e6 : ((' ' : Char) :: '=' :: ' ' :: x).dropWhile isReSpace = '=' :: ' ' :: x := by
    rw [List.dropWhile_cons, e1]
    simp only [if_true]
    rw [List.dropWhile_cons, e2]
    simp
  unfold matchAssign
  simp only [e3, e4, e5, e6]
  rw [if_neg (nameOk_ne_nil h)]
  simp

/-! ### Spec-modelled list fields

The repository's tests (`ini_test.go`, `TestList`) register list-typed fields
with `AddStringList`/`AddFloat64List`, and repeated assignment lines to such
a field append elements to its list.  The code implementing list fields is
not under `src/` (only the test exercising it is), so this part of the
engine is modelled from the spec (section 4.4, "legacy form"). -/

/-- A stored value of the engine with list fields: a scalar value, or the
accumulated element list of a list-typed field. -/
inductive LVal where
  | scalar (v : Value)
  | list (vs : List Value)
deriving DecidableEq, Repr

/-- Modelled from the spec: a field of the engine with list-typed fields
(`AddStringList`/`AddFloat64List` are absent from `src/`): a `Field` plus
the flag telling whether the field is list-typed, in which case its coercion
function is the per-element coercion. -/
structure FieldL where
  name : Str
  isList : Bool
  valid : Str → Option Value

/-- A section of the engine with list-typed fields. -/
structure IniSectionL where
  name : Str
  fields : List (Str × FieldL)

/-- A parser whose schema may contain list-typed fields. -/
structure ParserL where
  commentChar : Char
  quoteChar : Char
  sections : List (Str × IniSectionL)

/-- Modelled from the spec: the value stored by one assignment — "repeated
assignment lines to the same field each append one element, in input order,
to that field's list" (legacy list form); scalar fields keep
last-assignment-wins. -/
def applyAssign (old : Option LVal) (listField : Bool) (v : Value) : LVal :=
  if listField then
    match old with
    | some (.list vs) => .list (vs ++ [v])
    | _ => .list [v]
  else .scalar v

/-- Modelled from the spec: the scanning loop of the engine with list-typed
fields, which is absent from `src/`.  Identical to `parseLines` except that
the stored value of an assignment is computed by `applyAssign`, so that an
assignment to a list-typed field appends one element to the field's list. -/
def parseLinesL (p : ParserL) (names : List Str) :
    List Str → Nat → Option IniSectionL → Store LVal → Except PError (Store LVal)
  | [], _, _, st => .ok st
  | l :: ls, lineno, sect, st =>
    if isBlankOrComment p.commentChar l then
      parseLinesL p names ls (lineno + 1) sect st
    else
      match matchHeader names l with
      | some nm =>
        match alookup p.sections nm with
        | none => .error (.undefinedSection (lineno + 1) nm)
        | some s => parseLinesL p names ls (lineno + 1) (some s) (st.ensure s.name)
      | none =>
        match matchAssign l with
        | some (fname, raw) =>
          match sect with
          | none => .error (.settingOutsideSection (lineno + 1) fname)
          | some s =>
            match alookup s.fields fname with
            | none => .error (.noSuchField (lineno + 1) s.name fname)
            | some fld =>
              match fld.valid (preprocessValue p.quoteChar raw) with
              | none =>
                .error (.invalidValue (lineno + 1) s.name (preprocessValue p.quoteChar raw) fname)
              | some v =>
                parseLinesL p names ls (lineno + 1) (some s)
                  (st.set s.name fld.name
                    (applyAssign (st.lookupVal s.name fld.name) fld.isList v))
        | none =>
          match sect with
          | none => .error (.invalidSyntaxBeforeSection (lineno + 1))
          | some s => .error (.invalidSyntax (lineno + 1) s.name)

/-- The key enumeration of a `ParserL`. -/
def keysOfL (p : ParserL) : List Str := p.sections.map Prod.fst

/-- Modelled from the spec: `Parse` of the engine with list-typed fields. -/
def parseL (p : ParserL) (lines : List Str) : Except PError (Store LVal) :=
  parseLinesL p (keysOfL p) lines 0 none ⟨[]⟩

/-- The element values coerced by the successful assignments of
`parseLinesL`, in input order, with their store keys (as `collectVals`). -/
def collectValsL (p : ParserL) (names : List Str) :
    List Str → Option IniSectionL → List ((Str × Str) × Value)
  | [], _ => []
  | l :: ls, sect =>
    if isBlankOrComment p.commentChar l then collectValsL p names ls sect
    else
      match matchHeader names l with
      | some nm =>
        match alookup p.sections nm with
        | none => []
        | some s => collectValsL p names ls (some s)
      | none =>
        match matchAssign l with
        | some (fname, raw) =>
          match sect with
          | none => []
          | some s =>
            match alookup s.fields fname with
            | none => []
            | some fld =>
              match fld.valid (preprocessValue p.quoteChar raw) with
              | none => []
              | some v => ((s.name, fld.name), v) :: collectValsL p names ls (some s)
        | none => []

/-- The element values assigned to field `fname` of the section named
`sname` over a whole parse with list fields, in input order. -/
def assignedValsL (p : ParserL) (lines : List Str) (sname fname : Str) : List Value :=
  (collectValsL p (keysOfL p) lines none).filterMap
    (fun kv => if kv.1 = (sname, fname) then some kv.2 else none)

/-- Well-formedness of a `ParserL` as the registration API builds it: section
keys are distinct and each section is keyed by its own name; field keys are
distinct within a section and each field is keyed by its own name. -/
def ParserLWF (p : ParserL) : Prop :=
  (p.sections.map Prod.fst).Nodup ∧
    ∀ kv ∈ p.sections, kv.2.name = kv.1 ∧
      ((kv.2.fields.map Prod.fst).Nodup ∧ ∀ fv ∈ kv.2.fields, fv.2.name = fv.1)

theorem alookup_some_mem_pair {α : Type} {m : List (Str × α)} {k : Str} {v : α}
    (h : alookup m k = some v) : (k, v) ∈ m := by
  induction m with
  | nil => exact absurd h (by simp [alookup])
  | cons x t ih =>
    obtain ⟨k₀, w⟩ := x
    by_cases hk : k₀ = k
    · subst hk
      have h0 : (if k₀ = k₀ then some w else alookup t k₀) = some v := h
      rw [if_pos rfl] at h0
      cases h0
      exact List.mem_cons_self _ _
    · have h0 : (if k₀ = k then some w else alookup t k) = some v := h
      rw [if_neg hk] at h0
      exact List.mem_cons_of_mem _ (ih h0)

theorem nodup_alookup {α : Type} {m : List (Str × α)} {k : Str} {v : α}
    (hnd : (m.map Prod.fst).Nodup) (hmem : (k, v) ∈ m) : alookup m k = some v := by
  induction m with
  | nil => simp at hmem
  | cons x t ih =>
    obtain ⟨k₀, w⟩ := x
    rw [List.map_cons, List.nodup_cons] at hnd
    rcases List.mem_cons.mp hmem with heq | htail
    · cases heq
      show (if k = k then some v else alookup t k) = some v
      rw [if_pos rfl]
    · have hk : ¬ k₀ = k := by
        intro hk0
        subst hk0
        exact hnd.1 (List.mem_map.mpr ⟨(k₀, v), htail, rfl⟩)
      show (if k₀ = k then some w else alookup t k) = some v
      rw [if_neg hk]
      exact ih hnd.2 htail

/-- What an option-valued store slot holds, read as a list. -/
def getListVals (o : Option LVal) : List Value :=
  match o with
  | some (.list vs) => vs
  | _ => []

/-- List-value characterization of a successful run of the list engine: for a
registered list-typed field, the final stored slot extends the initial one by
exactly the element values assigned to it during the run, in input order; the
slot is filled exactly when it was filled initially or some assignment to it
occurred; and it always holds a list. -/
theorem parseLinesL_listVal (p : ParserL) (names : List Str) (hwf : ParserLWF p)
    {m g : Str} {s : IniSectionL} {fld : FieldL}
    (hs : alookup p.sections m = some s) (hf : alookup s.fields g = some fld)
    (hl : fld.isList = true) :
    ∀ (ls : List Str) (n : Nat) (sect : Option IniSectionL) (st st' : Store LVal),
      (∀ s₀, sect = some s₀ → ∃ k, (k, s₀) ∈ p.sections) →
      (∀ w, st.lookupVal m g = some w → ∃ vs, w = LVal.list vs) →
      parseLinesL p names ls n sect st = .ok st' →
      (getListVals (st'.lookupVal m g) =
        getListVals (st.lookupVal m g) ++
          ((collectValsL p names ls sect).filterMap
            (fun kv => if kv.1 = (m, g) then some kv.2 else none))) ∧
      ((st'.lookupVal m g).isSome =
        ((st.lookupVal m g).isSome ||
          !((collectValsL p names ls sect).filterMap
            (fun kv => if kv.1 = (m, g) then some kv.2 else none)).isEmpty)) ∧
      (∀ w, st'.lookupVal m g = some w → ∃ vs, w = LVal.list vs) := by
  intro ls
  induction ls with
  | nil =>
    intro n sect st st' hsect hshape h
    have h0 : Except.ok (ε := PError) st = .ok st' := h
    cases h0
    refine ⟨by simp [collectValsL], by simp [collectValsL], hshape⟩
  | cons l ls ih =>
    intro n sect st st' hsect hshape h
    simp only [parseLinesL] at h
    split at h
    · next hb =>
      have hres := ih _ _ _ _ hsect hshape h
      simp only [collectValsL, if_pos hb]
      exact hres
    · next hb =>
      split at h
      · next nm hh =>
        split at h
        · simp at h
        · next s₀ hs₀ =>
          have hsect2 : ∀ s₁, (some s₀ = some s₁) → ∃ k, (k, s₁) ∈ p.sections := by
            intro s₁ hs₁
            cases hs₁
            exact ⟨nm, alookup_some_mem_pair hs₀⟩
          have hshape2 : ∀ w, (st.ensure s₀.name).lookupVal m g = some w →
              ∃ vs, w = LVal.list vs := by
            intro w hw
            rw [lookupVal_ensure] at hw
            exact hshape w hw
          have hres := ih _ _ _ _ hsect2 hshape2 h
          simp only [collectValsL, if_neg hb, hh, hs₀]
          rw [lookupVal_ensure] at hres
          exact hres
      · next hh =>
        split at h
        · next fname raw ha =>
          split at h
          · simp at h
          · next s₀ =>
            split at h
            · simp at h
            · next fld₀ hf₀ =>
              split at h
              · simp at h
              · next v hv =>
                have hsect2 : ∀ s₁, (some s₀ = some s₁) → ∃ k, (k, s₁) ∈ p.sections := by
                  intro s₁ hs₁
                  cases hs₁
                  exact hsect s₀ rfl
                by_cases hkey : s₀.name = m ∧ fld₀.name = g
                · obtain ⟨k, hk⟩ := hsect s₀ rfl
                  have hname : s₀.name = k := (hwf.2 _ hk).1
                  have hkm : k = m := by rw [← hname]; exact hkey.1
                  have hlook : alookup p.sections m = some s₀ := by
                    rw [← hkm]
                    exact nodup_alookup hwf.1 hk
                  have hss : s₀ = s := by
                    rw [hlook] at hs
                    cases hs
                    rfl
                  have hfmem : (fname, fld₀) ∈ s₀.fields := alookup_some_mem_pair hf₀
                  have hfname : fld₀.name = fname := (hwf.2 _ hk).2.2 _ hfmem
                  have hfg : fname = g := by rw [← hfname]; exact hkey.2
                  have hff : fld₀ = fld := by
                    rw [hss, hfg] at hf₀
                    rw [hf₀] at hf
                    cases hf
                    rfl
                  have hisl : fld₀.isList = true := by rw [hff]; exact hl
                  have happ : applyAssign (st.lookupVal s₀.name fld₀.name) fld₀.isList v =
                      LVal.list (getListVals (st.lookupVal m g) ++ [v]) := by
                    rw [hkey.1, hkey.2, hisl]
                    unfold applyAssign
                    rw [if_pos rfl]
                    cases ho : st.lookupVal m g with
                    | none => rfl
                    | some w =>
                      obtain ⟨vs, hwv⟩ := hshape w ho
                      rw [hwv]
                      rfl
                  rw [happ] at h
                  have hshape2 : ∀ w,
                      (st.set s₀.name fld₀.name
                        (LVal.list (getListVals (st.lookupVal m g) ++ [v]))).lookupVal m g =
                        some w → ∃ vs, w = LVal.list vs := by
                    intro w hw
                    rw [lookupVal_set, if_pos hkey] at hw
                    cases hw
                    exact ⟨_, rfl⟩
                  have hres := ih _ _ _ _ hsect2 hshape2 h
                  obtain ⟨hres1, hres2, hres3⟩ := hres
                  rw [lookupVal_set, if_pos hkey] at hres1 hres2
                  simp only [collectValsL, if_neg hb, hh, ha, hf₀, hv]
                  rw [List.filterMap_cons]
                  have hcond : (((s₀.name, fld₀.name) : Str × Str) = (m, g)) := by
                    rw [hkey.1, hkey.2]
                  rw [if_pos hcond]
                  refine ⟨?_, ?_, hres3⟩
                  · rw [hres1]
                    show (getListVals (st.lookupVal m g) ++ [v]) ++ _ =
                      getListVals (st.lookupVal m g) ++ (v :: _)
                    rw [List.append_assoc]
                    rfl
                  · rw [hres2]
                    simp
                · have hkey2 : ¬ (((s₀.name, fld₀.name) : Str × Str) = (m, g)) := by
                    intro hc
                    exact hkey ⟨congrArg Prod.fst hc, congrArg Prod.snd hc⟩
                  have hshape2 : ∀ w,
                      (st.set s₀.name fld₀.name
                        (applyAssign (st.lookupVal s₀.name fld₀.name) fld₀.isList v)).lookupVal
                        m g = some w → ∃ vs, w = LVal.list vs := by
                    intro w hw
                    rw [lookupVal_set, if_neg hkey] at hw
                    exact hshape w hw
                  have hres := ih _ _ _ _ hsect2 hshape2 h
                  obtain ⟨hres1, hres2, hres3⟩ := hres
                  rw [lookupVal_set, if_neg hkey] at hres1 hres2
                  simp only [collectValsL, if_neg hb, hh, ha, hf₀, hv]
                  rw [List.filterMap_cons, if_neg hkey2]
                  exact ⟨hres1, hres2, hres3⟩
        · next ha =>
          split at h
          · simp at h
          · simp at h

/-! ### Remaining small lemmas -/

theorem matchAssign_headerLine (nm : Str) : matchAssign (headerLine nm) = none := by
  have e0 : isReSpace '[' = false := by decide
  have e1 : isNameChar '[' = false := by decide
  unfold matchAssign headerLine
  rw [List.dropWhile_cons, e0]
  simp only [Bool.false_eq_true, if_false]
  rw [List.takeWhile_cons, e1]
  simp

theorem goTrimSpace_cons_space (x : Str) : goTrimSpace (' ' :: x) = goTrimSpace x := by
  have e0 : isGoSpace ' ' = true := by decide
  unfold goTrimSpace
  rw [List.dropWhile_cons, e0]
  simp

/-! ### Concrete schemas for witnesses and counterexamples -/

/-- A parser with default options and one section `a` holding no fields. -/
def pSectA : Parser := ⟨'#', '"', [(str "a", ⟨str "a", []⟩)]⟩

/-- A parser with default options and one section `m` holding the
string-typed field `s`. -/
def pSectM : Parser :=
  ⟨'#', '"', [(str "m", ⟨str "m", [(str "s", ⟨str "s", 1, .vStr [], goParseString⟩)]⟩)]⟩

/-- The section of `pSectM`. -/
def secM : IniSection := ⟨str "m", [(str "s", ⟨str "s", 1, .vStr [], goParseString⟩)]⟩

/-- A list-engine parser with default options and one section `m` holding
the string-list field `xs`. -/
def pSectL : ParserL :=
  ⟨'#', '"', [(str "m", ⟨str "m", [(str "xs", ⟨str "xs", true, goParseString⟩)]⟩)]⟩

/-! ### The claims -/

/-- C1: `Parse` does not ignore exactly the lines the spec describes: the
line `:#x` — whose first non-whitespace character is `:`, not the comment
character `#` — is nevertheless treated as blank/comment, because `blankRe`
was written with `(:?` (a group with an optional literal colon) instead of
the non-capturing group marker `(?:`.  The spec-side classification
(`specCommentLine`) rejects the line; with a section `a` registered, a parse
containing `:#x` consequently skips it and succeeds. -/
theorem c1_comment_colon_code_bug :
    isBlankOrComment '#' (str ":#x") = true ∧
    specCommentLine '#' (str ":#x") = false ∧
    parse pSectA [str ":#x", str "[a]"] = .ok ⟨[(str "a", [])]⟩ :=
  ⟨by decide, by decide, by rfl⟩

/-- C2: a value consisting of a single quote character is changed by the
code's quote stripping: the prefix/suffix test passes (the lone quote is both
the first and the last rune), `TrimPrefix` removes it, and `TrimSuffix` then
finds nothing to remove, leaving the empty string.  The spec's stripping
(`specStripQuotes`, which requires length at least 2) leaves the lone quote
unchanged.  Parsing `s = "` therefore stores the empty string. -/
theorem c2_lone_quote_code_bug :
    stripQuotes '"' (str "\"") = str "" ∧
    specStripQuotes '"' (str "\"") = str "\"" ∧
    parse pSectM [str "[m]", str "s = \""] =
      .ok ⟨[(str "m", [(str "s", .vStr (str ""))])]⟩ :=
  ⟨by decide, by decide, by rfl⟩

/-- C3 counterexample: `other` is a well-formed identifier not registered in
`pSectA` (which registers only `a`), yet parsing the line `[other]` fails
with the "Invalid syntax before first section" error, not an "Undefined
section" error: `sectionRe` is built as an alternation of the registered
names only, so a bracketed unknown name does not match it at all. -/
theorem c3_counterexample :
    nameOk (str "other") = true ∧
    alookup pSectA.sections (str "other") = none ∧
    parse pSectA [str "[other]"] = .error (.invalidSyntaxBeforeSection 1) :=
  ⟨by decide, by rfl, by rfl⟩

/-- A `takeWhile` over name characters stops immediately on
whitespace-then-`]`: the first rune is either a whitespace rune or `]`,
neither a name character. -/
theorem takeWhile_name_space_bracket (w3 w4 : Str) (h3 : ∀ c ∈ w3, isReSpace c = true) :
    (w3 ++ ']' :: w4).takeWhile isNameChar = [] := by
  cases w3 with
  | nil =>
    rw [List.nil_append, List.takeWhile_cons, (by decide : isNameChar ']' = false)]
    simp
  | cons c t =>
    have hc : isNameChar c = false := reSpace_not_nameChar (h3 c (by simp))
    rw [List.cons_append, List.takeWhile_cons, hc]
    simp

/-- A `dropWhile` over name characters leaves whitespace-then-`]` intact. -/
theorem dropWhile_name_space_bracket (w3 w4 : Str) (h3 : ∀ c ∈ w3, isReSpace c = true) :
    (w3 ++ ']' :: w4).dropWhile isNameChar = w3 ++ ']' :: w4 := by
  cases w3 with
  | nil =>
    rw [List.nil_append, List.dropWhile_cons, (by decide : isNameChar ']' = false)]
    simp
  | cons c t =>
    have hc : isNameChar c = false := reSpace_not_nameChar (h3 c (by simp))
    rw [List.cons_append, List.dropWhile_cons, hc]
    simp

theorem dropWhile_all_nil {p : Char → Bool} (xs : Str) (h : ∀ c ∈ xs, p c = true) :
    xs.dropWhile p = [] := by
  have hx := dropWhile_append_all (p := p) xs [] h
  rw [List.append_nil] at hx
  rw [hx]
  rfl

/-- A line that is whitespace followed by `[` is not blank/comment when the
comment character is not `[`. -/
theorem blank_headerShaped {cc : Char} (w1 rest : Str) (hcc : ¬ cc = '[')
    (h1 : ∀ c ∈ w1, isReSpace c = true) :
    isBlankOrComment cc (w1 ++ '[' :: rest) = false := by
  unfold isBlankOrComment
  rw [dropWhile_append_all _ _ h1, List.dropWhile_cons, (by decide : isReSpace '[' = false)]
  simp only [Bool.false_eq_true, if_false]
  have hx : ¬ ('[' : Char) = cc := fun hg => hcc hg.symm
  simp [hx]

/-- A line that is whitespace followed by `[` does not match `valRe`: `[` is
not a name character. -/
theorem matchAssign_headerShaped (w1 rest : Str) (h1 : ∀ c ∈ w1, isReSpace c = true) :
    matchAssign (w1 ++ '[' :: rest) = none := by
  have s1 : (w1 ++ '[' :: rest).dropWhile isReSpace = '[' :: rest := by
    rw [dropWhile_append_all _ _ h1, List.dropWhile_cons,
      (by decide : isReSpace '[' = false)]
    simp
  have s2 : ('[' :: rest).takeWhile isNameChar = [] := by
    rw [List.takeWhile_cons, (by decide : isNameChar '[' = false)]
    simp
  unfold matchAssign
  simp only [s1, s2]
  simp

/-- `sectionRe` matching on any line of the full bracketed-header shape
`\s*\[\s*NAME\s*\]\s*` — the four whitespace runs are arbitrary — for a
well-formed NAME: the capture succeeds exactly when NAME is registered. -/
theorem matchHeader_headerShaped (names : List Str) {nm : Str} (w1 w2 w3 w4 : Str)
    (h : nameOk nm = true)
    (h1 : ∀ c ∈ w1, isReSpace c = true) (h2 : ∀ c ∈ w2, isReSpace c = true)
    (h3 : ∀ c ∈ w3, isReSpace c = true) (h4 : ∀ c ∈ w4, isReSpace c = true) :
    matchHeader names (w1 ++ '[' :: (w2 ++ (nm ++ (w3 ++ (']' :: w4))))) =
      if nm ∈ names then some nm else none := by
  have hall : ∀ c ∈ nm, isNameChar c = true := nameOk_all h
  obtain ⟨c, t, hnm, hc⟩ := nameOk_head h
  have s1 : (w1 ++ '[' :: (w2 ++ (nm ++ (w3 ++ (']' :: w4))))).dropWhile isReSpace
      = '[' :: (w2 ++ (nm ++ (w3 ++ (']' :: w4)))) := by
    rw [dropWhile_append_all _ _ h1, List.dropWhile_cons,
      (by decide : isReSpace '[' = false)]
    simp
  have s2 : (w2 ++ (nm ++ (w3 ++ (']' :: w4)))).dropWhile isReSpace
      = nm ++ (w3 ++ (']' :: w4)) := by
    rw [dropWhile_append_all _ _ h2, hnm, List.cons_append, List.dropWhile_cons,
      nameChar_not_reSpace hc]
    simp
  have s3 : (nm ++ (w3 ++ (']' :: w4))).takeWhile isNameChar = nm := by
    rw [takeWhile_append_all nm _ hall, takeWhile_name_space_bracket w3 w4 h3,
      List.append_nil]
  have s4 : (nm ++ (w3 ++ (']' :: w4))).dropWhile isNameChar = w3 ++ (']' :: w4) := by
    rw [dropWhile_append_all nm _ hall]
    exact dropWhile_name_space_bracket w3 w4 h3
  have s5 : (w3 ++ (']' :: w4)).dropWhile isReSpace = ']' :: w4 := by
    rw [dropWhile_append_all _ _ h3, List.dropWhile_cons,
      (by decide : isReSpace ']' = false)]
    simp
  have s6 : (w4.dropWhile isReSpace).isEmpty = true := by
    rw [dropWhile_all_nil w4 h4]
    rfl
  unfold matchHeader
  rw [s1]
  simp only [if_pos rfl, s2, s3, s4, s5, s6]
  simp only [if_true]
  unfold nameMatches
  rw [decide_eq_false (by rw [hnm]; simp : ¬ nm = [])]
  simp only [Bool.and_false, Bool.or_false, Bool.true_and]
  by_cases hmem : nm ∈ names
  · simp [hmem]
  · simp [hmem]

/-- C3 amended: for every line of the bracketed section-header shape
`\s*\[\s*NAME\s*\]\s*` (arbitrary whitespace in all four positions) whose
NAME is a well-formed identifier not registered in the schema (with the
default comment character `#`), the line is reported as invalid syntax —
`invalidSyntaxBeforeSection` outside any section, `invalidSyntax` citing the
current section inside one — and never as an undefined-section error,
wherever the line occurs during the scan. -/
theorem c3_amended_invalid_syntax (p : Parser) (nm : Str) (w1 w2 w3 w4 : Str)
    (rest : List Str) (n : Nat) (sect : Option IniSection) (st : Store Value)
    (hcc : p.commentChar = '#') (hnm : nameOk nm = true)
    (habs : nm ∉ p.sections.map Prod.fst)
    (h1 : ∀ c ∈ w1, isReSpace c = true) (h2 : ∀ c ∈ w2, isReSpace c = true)
    (h3 : ∀ c ∈ w3, isReSpace c = true) (h4 : ∀ c ∈ w4, isReSpace c = true) :
    parseLines p (keysOf p)
        ((w1 ++ '[' :: (w2 ++ (nm ++ (w3 ++ (']' :: w4))))) :: rest) n sect st =
      .error (match sect with
        | none => .invalidSyntaxBeforeSection (n + 1)
        | some s => .invalidSyntax (n + 1) s.name) := by
  have hb : isBlankOrComment p.commentChar
      (w1 ++ '[' :: (w2 ++ (nm ++ (w3 ++ (']' :: w4))))) = false := by
    rw [hcc]
    exact blank_headerShaped _ _ (by decide) h1
  have hm : matchHeader (keysOf p)
      (w1 ++ '[' :: (w2 ++ (nm ++ (w3 ++ (']' :: w4))))) = none := by
    rw [matchHeader_headerShaped (keysOf p) w1 w2 w3 w4 hnm h1 h2 h3 h4]
    exact if_neg habs
  have ha : matchAssign (w1 ++ '[' :: (w2 ++ (nm ++ (w3 ++ (']' :: w4))))) = none :=
    matchAssign_headerShaped _ _ h1
  simp only [parseLines, hb, Bool.false_eq_true, if_false, hm, ha]
  cases sect with
  | none => rfl
  | some s => rfl

/-- C3 amended, witness at the whitespace-bearing concrete line ` [ other ] `. -/
theorem c3_amended_witness :
    parseLines pSectA (keysOf pSectA)
        [[' '] ++ '[' :: ([' '] ++ (str "other" ++ ([' '] ++ (']' :: [' ']))))] 0 none ⟨[]⟩ =
      .error (.invalidSyntaxBeforeSection 1) :=
  c3_amended_invalid_syntax pSectA (str "other") [' '] [' '] [' '] [' '] [] 0 none ⟨[]⟩
    rfl (by decide) (by decide) (by decide) (by decide) (by decide) (by decide)

/-- C4 counterexample: `a$` matches the claim's identifier pattern
`[-a-zA-Z0-9_$]+` (`specNameOk`) and is not registered, yet `AddSection`
rejects it (a panic, modelled as `none`), because `nameRe` has no `$`;
likewise `Add` rejects the well-formed unregistered field name `x` when the
type tag is 0, so registration does not succeed "exactly when the name is
well-formed and unregistered". -/
theorem c4_counterexample :
    specNameOk (str "a$") = true ∧
    alookup newParser.sections (str "a$") = none ∧
    addSection newParser (str "a$") = none ∧
    addField ⟨str "m", []⟩ (str "x") 0 (.vBool false) goParseBool = none :=
  ⟨by decide, by rfl, by rfl, by rfl⟩

/-- C4 amended: `AddSection` succeeds exactly when the name matches `nameRe`
(`[a-zA-Z0-9-_]+` — names containing `$` are rejected) and is not already
registered, and `Add` exactly when additionally the type tag is at least 1;
failure is an immediate panic at registration time (modelled as `none`),
never deferred to parse time. -/
theorem c4_amended_registration (p : Parser) (s : IniSection) (nm fnm : Str)
    (ty : Int) (d : Value) (vf : Str → Option Value) :
    ((addSection p nm).isSome = (nameOk nm && (alookup p.sections nm).isNone)) ∧
    ((addField s fnm ty d vf).isSome =
      (nameOk fnm && !(decide (ty < 1)) && (alookup s.fields fnm).isNone)) := by
  constructor
  · by_cases h1 : nameOk nm = true
    · cases h2 : alookup p.sections nm with
      | some w => simp [addSection, h1, h2]
      | none => simp [addSection, h1, h2]
    · have h1f : nameOk nm = false := by
        cases hx : nameOk nm
        · rfl
        · exact absurd hx h1
      simp [addSection, h1f]
  · by_cases h1 : nameOk fnm = true
    · by_cases h2 : ty < 1
      · simp [addField, h1, h2]
      · cases h3 : alookup s.fields fnm with
        | some w => simp [addField, h1, h2, h3]
        | none => simp [addField, h1, h2, h3]
    · have h1f : nameOk fnm = false := by
        cases hx : nameOk fnm
        · rfl
        · exact absurd hx h1
      simp [addField, h1f]

/-- C5: after a successful parse, the value the store records for any
(section, field) key is the last element of `assignedVals` — the sequence, in
input order, of the coercion-function outputs on the preprocessed texts of
the assignment lines to that field while its section was current — and is
absent when there was no such assignment: for scalar fields (all fields of
this engine) the last assignment wins. -/
theorem c5_last_assignment_wins (p : Parser) (lines : List Str)
    (st : Store Value) (sname fname : Str)
    (h : parse p lines = .ok st) :
    st.lookupVal sname fname = lastVal (assignedVals p lines sname fname) := by
  have hc := parseLines_lookupVal p (keysOf p) lines 0 none ⟨[]⟩ st h sname fname
  rw [hc]
  show (match lastVal (assignedVals p lines sname fname) with
        | some v => some v
        | none => (⟨[]⟩ : Store Value).lookupVal sname fname) =
      lastVal (assignedVals p lines sname fname)
  cases lastVal (assignedVals p lines sname fname) with
  | some v => rfl
  | none => rfl

/-- C5 witness: two assignments to the scalar string field `s`; the stored
value is the coercion of the second. -/
theorem c5_witness :
    parse pSectM [str "[m]", str "s = one", str "s = two"] =
      .ok ⟨[(str "m", [(str "s", .vStr (str "two"))])]⟩ ∧
    (Store.mk [(str "m", [(str "s", Value.vStr (str "two"))])] : Store Value).lookupVal
        (str "m") (str "s") =
      lastVal (assignedVals pSectM [str "[m]", str "s = one", str "s = two"]
        (str "m") (str "s")) :=
  ⟨by rfl,
   c5_last_assignment_wins pSectM [str "[m]", str "s = one", str "s = two"]
     ⟨[(str "m", [(str "s", Value.vStr (str "two"))])]⟩ (str "m") (str "s") (by rfl)⟩

/-- C6: after a successful parse, a section is present in the store — the
test `Section.Present` performs — exactly when a header line for it appears
in the input (`headerNames`), even if the section received no assignment. -/
theorem c6_present_iff_header (p : Parser) (lines : List Str) (st : Store Value)
    (h : parse p lines = .ok st) (m : Str) :
    st.lookupSect m = true ↔ m ∈ headerNames p (keysOf p) lines := by
  have hc := parseLines_lookupSect p (keysOf p) lines 0 none ⟨[]⟩ st
    (fun s hs => by cases hs) h m
  rw [hc]
  constructor
  · rintro (hfalse | hmem)
    · simp [Store.lookupSect, alookup] at hfalse
    · exact hmem
  · exact fun hmem => .inr hmem

/-- C6 witness: a blank line and a header `[ a ]` with no assignments; the
section is present, and presence coincides with `headerNames` membership. -/
theorem c6_witness :
    ((Store.mk [(str "a", [])] : Store Value).lookupSect (str "a") = true ↔
      str "a" ∈ headerNames pSectA (keysOf pSectA) [str "", str "[ a ]"]) :=
  c6_present_iff_header pSectA [str "", str "[ a ]"] ⟨[(str "a", [])]⟩ (by rfl) (str "a")

/-- C7 counterexample: with the always-valid identity coercion
(`ParseString`) and `x` the quoted text `"hi"`, the coercion accepts `x`
returning `x` itself, but parsing `[m]` followed by `s = "hi"` succeeds and
stores the preprocessed (quote-stripped) text `hi`, not `x`: the round-trip
claim fails for inputs that preprocessing changes. -/
theorem c7_counterexample :
    goParseString (str "\"hi\"") = some (.vStr (str "\"hi\"")) ∧
    parse pSectM [str "[m]", str "s = \"hi\""] =
      .ok ⟨[(str "m", [(str "s", .vStr (str "hi"))])]⟩ ∧
    Value.vStr (str "hi") ≠ Value.vStr (str "\"hi\"") :=
  ⟨by rfl, by rfl, by decide⟩

/-- C7 amended: the round trip holds for preprocessing-stable texts: if the
registered field's coercion accepts `x` with value `v`, and `x` is unchanged
by trimming and by quote stripping (and the comment character is the default
`#`), then parsing the section header followed by the single-line assignment
`fname = x` succeeds and the store holds `v` for that field. -/
theorem c7_roundtrip (p : Parser) (sname fname x : Str) (s : IniSection)
    (fld : Field) (v : Value)
    (hcc : p.commentChar = '#')
    (hs : alookup p.sections sname = some s) (hsn : s.name = sname)
    (hns : nameOk sname = true)
    (hf : alookup s.fields fname = some fld) (hfn : fld.name = fname)
    (hnf : nameOk fname = true)
    (htrim : goTrimSpace x = x) (hquote : stripQuotes p.quoteChar x = x)
    (hval : fld.valid x = some v) :
    parse p [headerLine sname, assignLine fname x] =
      .ok ⟨[(sname, [(fname, v)])]⟩ := by
  have hb1 : isBlankOrComment p.commentChar (headerLine sname) = false := by
    rw [hcc]
    exact blank_headerLine sname (by decide)
  have hmem : sname ∈ keysOf p := alookup_some_mem hs
  have hm1 : matchHeader (keysOf p) (headerLine sname) = some sname := by
    rw [matchHeader_headerLine _ hns]
    exact if_pos hmem
  have hb2 : isBlankOrComment p.commentChar (assignLine fname x) = false := by
    rw [hcc]
    exact blank_assignLine x hnf (by decide)
  have hm2 : matchHeader (keysOf p) (assignLine fname x) = none :=
    matchHeader_assignLine _ x hnf
  have ha2 : matchAssign (assignLine fname x) = some (fname, ' ' :: x) :=
    matchAssign_assignLine x hnf
  have htxt : preprocessValue p.quoteChar (' ' :: x) = x := by
    unfold preprocessValue
    rw [goTrimSpace_cons_space, htrim, hquote]
  unfold parse
  simp only [parseLines, hb1, Bool.false_eq_true, if_false, hm1, hs, hb2, hm2, ha2, hf,
    htxt, hval]
  rw [hsn, hfn]
  simp [Store.ensure, Store.set, alookup, asetIn, aset]

/-- C7 amended, witness at a concrete input. -/
theorem c7_witness :
    parse pSectM [headerLine (str "m"), assignLine (str "s") (str "hi")] =
      .ok ⟨[(str "m", [(str "s", Value.vStr (str "hi"))])]⟩ :=
  c7_roundtrip pSectM (str "m") (str "s") (str "hi") secM
    ⟨str "s", 1, .vStr [], goParseString⟩ (Value.vStr (str "hi"))
    rfl (by rfl) rfl (by decide) (by rfl) rfl (by decide) (by decide) (by decide) (by rfl)

/-- C8: the result of the scanning loop does not depend on the enumeration
order of the registered section names used to build `sectionRe`: any two key
enumerations with the same membership give identical results on every input,
every starting state and every line counter — so two `Parse` calls on the
same input against the same unmutated schema return identical results (both
the same error, or Stores with identical presence flags and values),
whatever order Go's map iteration yields. -/
theorem c8_determinism (p : Parser) (names₁ names₂ : List Str)
    (h : ∀ a, a ∈ names₁ ↔ a ∈ names₂) :
    ∀ (ls : List Str) (n : Nat) (sect : Option IniSection) (st : Store Value),
      parseLines p names₁ ls n sect st = parseLines p names₂ ls n sect st := by
  intro ls
  induction ls with
  | nil =>
    intro n sect st
    rfl
  | cons l ls ih =>
    intro n sect st
    simp only [parseLines, matchHeader_congr h l, ih]

/-- C8 witness: the two enumeration orders of a two-section schema agree on a
concrete input. -/
theorem c8_witness :
    parseLines pSectA [str "a", str "b"] [str "[a]"] 0 none ⟨[]⟩ =
      parseLines pSectA [str "b", str "a"] [str "[a]"] 0 none ⟨[]⟩ :=
  c8_determinism pSectA [str "a", str "b"] [str "b", str "a"]
    (fun a => by simp [List.mem_cons, or_comm]) [str "[a]"] 0 none ⟨[]⟩

/-- C9: for a registered list-typed field of the (spec-modelled) list
engine, after a successful parse the stored value is exactly the list of the
element-coercion outputs of the assignment lines to that field, in input
order — each repeated single-line assignment appends one element — and the
slot is absent when there was no assignment. -/
theorem c9_list_append (p : ParserL) (sname fname : Str)
    (s : IniSectionL) (fld : FieldL) (lines : List Str) (st : Store LVal)
    (hwf : ParserLWF p)
    (hs : alookup p.sections sname = some s) (hf : alookup s.fields fname = some fld)
    (hl : fld.isList = true) (h : parseL p lines = .ok st) :
    st.lookupVal sname fname =
      if assignedValsL p lines sname fname = [] then none
      else some (.list (assignedValsL p lines sname fname)) := by
  obtain ⟨h1, h2, h3⟩ := parseLinesL_listVal p (keysOfL p) hwf hs hf hl lines 0 none ⟨[]⟩ st
    (fun s₀ hs₀ => by cases hs₀) (fun w hw => by simp [Store.lookupVal, alookup] at hw) h
  have hfold : (collectValsL p (keysOfL p) lines none).filterMap
      (fun kv => if kv.1 = (sname, fname) then some kv.2 else none) =
      assignedValsL p lines sname fname := rfl
  rw [hfold] at h1 h2
  have hbase : (⟨[]⟩ : Store LVal).lookupVal sname fname = none := rfl
  rw [hbase] at h1 h2
  simp only [Option.isSome_none, Bool.false_or] at h2
  by_cases hemp : assignedValsL p lines sname fname = []
  · rw [if_pos hemp]
    rw [hemp] at h2
    simp only [List.isEmpty_nil, Bool.not_true] at h2
    cases ho : st.lookupVal sname fname with
    | none => rfl
    | some w =>
      rw [ho] at h2
      simp at h2
  · rw [if_neg hemp]
    cases ho : st.lookupVal sname fname with
    | none =>
      rw [ho] at h2
      have : ¬ (assignedValsL p lines sname fname).isEmpty = true := by
        intro hx
        exact hemp (List.isEmpty_iff.mp hx)
      simp only [Option.isSome_none] at h2
      cases hx : (assignedValsL p lines sname fname).isEmpty with
      | true => exact absurd hx this
      | false => rw [hx] at h2; simp at h2
    | some w =>
      obtain ⟨vs, hwv⟩ := h3 w ho
      rw [ho, hwv] at h1
      have hvs : vs = assignedValsL p lines sname fname := by
        have : getListVals (some (LVal.list vs)) = vs := rfl
        rw [this] at h1
        simpa using h1
      rw [hwv, hvs]

/-- C9 witness: two assignments to the string-list field `xs` accumulate in
input order. -/
theorem c9_witness :
    parseL pSectL [str "[m]", str "xs = a", str "xs = b"] =
      .ok ⟨[(str "m", [(str "xs",
        LVal.list [Value.vStr (str "a"), Value.vStr (str "b")])])]⟩ ∧
    (Store.mk [(str "m", [(str "xs",
        LVal.list [Value.vStr (str "a"), Value.vStr (str "b")])])] : Store LVal).lookupVal
        (str "m") (str "xs") =
      (if assignedValsL pSectL [str "[m]", str "xs = a", str "xs = b"]
          (str "m") (str "xs") = [] then none
       else some (.list (assignedValsL pSectL [str "[m]", str "xs = a", str "xs = b"]
          (str "m") (str "xs")))) :=
  ⟨by rfl,
   c9_list_append pSectL (str "m") (str "xs")
     ⟨str "m", [(str "xs", ⟨str "xs", true, goParseString⟩)]⟩
     ⟨str "xs", true, goParseString⟩
     [str "[m]", str "xs = a", str "xs = b"]
     ⟨[(str "m", [(str "xs", LVal.list [Value.vStr (str "a"), Value.vStr (str "b")])])]⟩
     (by unfold ParserLWF; decide) (by rfl) (by rfl) (by rfl) (by rfl)⟩

/-- C10: during a single successful run of the scanning loop the store only
grows — every section present and every field slot filled beforehand is
still present afterwards (the slot's value may be overwritten but never
removed) — and re-processing a header line for an already-present section
reuses the existing record: `ensure` on a present section is the identity,
so the values assigned under the first occurrence of the header survive
re-entry. -/
theorem c10_store_grows (p : Parser) (names : List Str) (ls : List Str) (n : Nat)
    (sect : Option IniSection) (st st' : Store Value)
    (hcur : ∀ s, sect = some s → st.lookupSect s.name = true)
    (h : parseLines p names ls n sect st = .ok st') :
    (∀ m, st.lookupSect m = true → st'.lookupSect m = true) ∧
    (∀ m g v, st.lookupVal m g = some v → ∃ w, st'.lookupVal m g = some w) ∧
    (∀ (st₀ : Store Value) (nm : Str), st₀.lookupSect nm = true → st₀.ensure nm = st₀) := by
  obtain ⟨h1, h2⟩ := parseLines_monotone p names ls n sect st st' hcur h
  refine ⟨h1, h2, ?_⟩
  intro st₀ nm hp
  have hp2 : (alookup st₀.sections nm).isSome = true := hp
  unfold Store.ensure
  rw [if_pos hp2]

/-- C10 witness: one further assignment after re-entering the state keeps
the already-present section and already-stored value present. -/
theorem c10_witness :
    (∀ m, (Store.mk [(str "m", [])] : Store Value).lookupSect m = true →
      (Store.mk [(str "m", [(str "s", Value.vStr (str "hi"))])] : Store Value).lookupSect
        m = true) ∧
    (∀ m g v, (Store.mk [(str "m", [])] : Store Value).lookupVal m g = some v →
      ∃ w, (Store.mk [(str "m", [(str "s", Value.vStr (str "hi"))])] :
        Store Value).lookupVal m g = some w) ∧
    (∀ (st₀ : Store Value) (nm : Str), st₀.lookupSect nm = true → st₀.ensure nm = st₀) :=
  c10_store_grows pSectM (keysOf pSectM) [str "s = hi"] 0 (some secM)
    ⟨[(str "m", [])]⟩ ⟨[(str "m", [(str "s", Value.vStr (str "hi"))])]⟩
    (fun s hs => by cases hs; rfl) (by rfl)

end Ini
